import Mathlib

/-!
Verification development for `sopa_server.c`: a minimal single-process HTTP
server built on a `select` event loop.  The definitions below are shallow
embeddings of the C functions; machine integers are modelled as `Nat`/`Int`
(no arithmetic in the program overflows), file descriptors as `Nat`, bytes of
the inbound stream as `Char` (the C code compares `char` values against
character literals), and the `fd_set` interest sets as `Finset Nat`.
-/

namespace Sopa

/-- The C constant `HTTP_TIMEOUT` (idle timeout in seconds), line 34. -/
def HTTP_TIMEOUT : Int := 5

/-- `INT_MAX`, the sentinel stored in the global `youngest` when no
connection has been visited (lines 389 and 424). -/
def INT_MAX : Int := 2147483647

/-- Result of feeding one byte to the request recognizer of `client_read`
(lines 218-261): either a new value of `cl->state`, or the `do_get` call in
state 5 (request complete), or one of the `return 0` branches in states 0-3
(hard rejection). -/
inductive Step where
  | more (s : Nat)
  | accept
  | reject
deriving DecidableEq

/-- One iteration of the `switch (cl->state)` in `client_read`
(lines 218-261).  States 0-2 match the bytes of the method token `GET`,
state 3 the following space, state 4 skips the rest of the request line,
state 5 decides whether a line is blank (`'\r'` or `'\n'` first), and
state 6 skips a header line up to its terminating `'\n'`.  A state outside
0-6 never occurs; the `switch` would fall through consuming the byte, which
the catch-all arm mirrors. -/
def read_step (s : Nat) (c : Char) : Step :=
  match s with
  | 0 => if c = 'G' then .more 1 else .reject
  | 1 => if c = 'E' then .more 2 else .reject
  | 2 => if c = 'T' then .more 3 else .reject
  | 3 => if c = ' ' then .more 4 else .reject
  | 4 => if c = '\n' then .more 5 else .more 4
  | 5 => if c = '\r' ∨ c = '\n' then .accept else .more 6
  | 6 => if c = '\n' then .more 5 else .more 6
  | _ => .more s

/-- Observable status of a connection's recognizer: still reading with a
persisted `cl->state`, accepted (moved to the writer list by `do_get`,
line 251; remaining bytes of the chunk are discarded by the `return 1`), or
rejected (closed by `process_generic` after `client_read` returns 0). -/
inductive Outcome where
  | reading (s : Nat)
  | accepted
  | rejected
deriving DecidableEq

/-- The `while (len > 0)` loop of `client_read` (lines 215-264) on one read
chunk, starting from the persisted `cl->state`. -/
def run_bytes (s : Nat) : List Char → Outcome
  | [] => .reading s
  | c :: rest =>
    match read_step s c with
    | .more s2 => run_bytes s2 rest
    | .accept => .accepted
    | .reject => .rejected

/-- One call of `client_read` delivering a chunk to a connection: a
connection already accepted or rejected no longer consumes inbound bytes
(it has left the reader list). -/
def run_chunk : Outcome → List Char → Outcome
  | .reading s, bs => run_bytes s bs
  | o, _ => o

/-- A sequence of `client_read` calls, each delivering one chunk, with the
recognizer state persisted in the connection record in between. -/
def run_chunks (o : Outcome) (cs : List (List Char)) : Outcome :=
  cs.foldl run_chunk o

/-- The byte stream `GET / HTTP/1.0` followed by CR LF CR LF: the method
token, a space, the rest of a request line, and the blank line that
terminates the (empty) header section. -/
def sopaRequest : List Char :=
  ['G', 'E', 'T', ' ', '/', ' ', 'H', 'T', 'T', 'P', '/', '1', '.', '0',
   '\r', '\n', '\r', '\n']

/-- The fields of `struct client` (lines 45-51) other than the intrusive
`next` pointer, which is represented by list membership. -/
structure Client where
  fd : Nat
  state : Nat
  last : Int
  write_ofs : Nat
deriving DecidableEq

/-- The server's connection-facing globals (lines 53-57) plus the queue of
connections pending on the listening socket, which the kernel holds and
`accept` pops. -/
structure Sys where
  pending : List Nat
  readers : List Client
  writers : List Client
  rfds : Finset Nat
  wfds : Finset Nat
  fd_max : Nat

/-- `client_accept` (lines 123-146): a single `accept` call.  With no
pending connection, `accept` fails with `EAGAIN` and the function returns;
otherwise the new descriptor becomes a zeroed record (`calloc`) with
`fd = newfd`, `last = now`, prepended to `reader_head`, its bit set in
`rfds`, and `fd_max` raised. -/
def client_accept (now : Int) (s : Sys) : Sys :=
  match s.pending with
  | [] => s
  | newfd :: rest =>
    { s with
      pending := rest
      readers := ⟨newfd, 0, now, 0⟩ :: s.readers
      rfds := insert newfd s.rfds
      fd_max := max s.fd_max newfd }

/-- `do_get` (lines 186-200) acting on a connection `cl` whose position in
the reader list is given by the split `readers = pre ++ cl :: post`
(`prev` points at the link before `cl`): splice `cl` out of the reader
list, prepend it to the writer list, clear its `rfds` bit, set its `wfds`
bit, and reset `write_ofs` to 0 and `state` to 0 (the header phase of
`client_write`). -/
def do_get (s : Sys) (pre : List Client) (cl : Client) (post : List Client) :
    Sys :=
  { s with
    readers := pre ++ post
    writers := { cl with write_ofs := 0, state := 0 } :: s.writers
    rfds := s.rfds.erase cl.fd
    wfds := insert cl.fd s.wfds }

/-- The two fields of `struct client` that `client_write` uses, split out so
the Response Writer can be studied on its own. -/
structure WClient where
  state : Nat
  write_ofs : Nat
deriving DecidableEq

/-- The `switch (cl->state)` of `client_write` (lines 155-167): state 0
writes from the header buffer, state 1 from the body buffer, and any other
state returns 0 ("completed", the connection is closed). -/
def write_buf (hdrB msgB : List α) (s : Nat) : Option (List α) :=
  if s = 0 then some hdrB else if s = 1 then some msgB else none

/-- Offset/phase accounting of `client_write` (lines 176-181): add the
accepted byte count to `write_ofs`; when the buffer is exhausted advance
`state` and reset `write_ofs` to 0. -/
def wstep (buflen : Nat) (cl : WClient) (a : Nat) : WClient :=
  if cl.write_ofs + a = buflen then ⟨cl.state + 1, 0⟩
  else ⟨cl.state, cl.write_ofs + a⟩

/-- A sequence of `client_write` calls (lines 148-184), one per entry of
`sched`; entry `a` is the byte count the transport accepted on that call
(the `res` returned by `write`).  Each call transmits the `a` bytes of the
current buffer starting at `write_ofs`.  Once `state` passes the body
buffer, `write_buf` is `none`: the call returns 0 and the connection is
closed, so nothing further is written. -/
def writer_run (hdrB msgB : List α) : WClient → List Nat → WClient × List α
  | cl, [] => (cl, [])
  | cl, a :: rest =>
    match write_buf hdrB msgB cl.state with
    | none => (cl, [])
    | some buf =>
      let r := writer_run hdrB msgB (wstep buf.length cl a) rest
      (r.1, (buf.drop cl.write_ofs).take a ++ r.2)

/-- A schedule of transport-accepted byte counts is valid when every call
happens while a buffer is still active and accepts between 1 byte and the
requested `buflen - write_ofs` bytes (the range a successful `write` can
return). -/
def validSched (hdrB msgB : List α) : WClient → List Nat → Bool
  | _, [] => true
  | cl, a :: rest =>
    match write_buf hdrB msgB cl.state with
    | none => false
    | some buf =>
      decide (1 ≤ a) && decide (cl.write_ofs + a ≤ buf.length) &&
        validSched hdrB msgB (wstep buf.length cl a) rest

/-- The response bytes not yet transmitted for a writer in the given
phase/offset. -/
def restBytes (hdrB msgB : List α) (cl : WClient) : List α :=
  if cl.state = 0 then hdrB.drop cl.write_ofs ++ msgB
  else if cl.state = 1 then msgB.drop cl.write_ofs
  else []

/-- End-to-end bytes written on one connection that received `request`:
only a connection whose recognizer accepted is transferred to the writer
list by `do_get` (with `state = 0`, `write_ofs = 0`), where `client_write`
runs against the transport schedule `sched`; a connection still reading or
rejected never has `write` called on it. -/
def connection_written (request : List Char) (hdrB msgB : List Char)
    (sched : List Nat) : List Char :=
  match run_bytes 0 request with
  | .accepted => (writer_run hdrB msgB ⟨0, 0⟩ sched).2
  | _ => []

/-- Instrumented result of one `process_generic` traversal (lines 269-299):
the records still linked afterwards, the descriptors evicted by the idle
check (line 283), the descriptors evicted because their handler returned 0
(line 290), the descriptors on which the handler was invoked at all, and
the final value of the global `youngest`. -/
structure PResult where
  survivors : List Client
  evIdle : List Nat
  evDisc : List Nat
  invoked : List Nat
  youngest : Int
deriving DecidableEq

/-- `process_generic` (lines 269-299) over a collection snapshot: for each
record, first fold its `last` into `youngest` (lines 278-282), then evict
it if `last <= timeout` where `timeout = now - HTTP_TIMEOUT` (lines
283-287), then, if its descriptor is ready, invoke the handler and evict on
failure (lines 290-294); survivors are re-armed in the interest set.  The
handler is the abstracted `client_read` / `client_write` returning
keep (true) or close (false). -/
def process_generic (timeout : Int) (ready : Finset Nat)
    (handler : Client → Bool) (youngest : Int) : List Client → PResult
  | [] => ⟨[], [], [], [], youngest⟩
  | curr :: rest =>
    let y2 := if curr.last < youngest then curr.last else youngest
    if curr.last ≤ timeout then
      let r := process_generic timeout ready handler y2 rest
      { r with evIdle := curr.fd :: r.evIdle }
    else if curr.fd ∈ ready then
      if handler curr then
        let r := process_generic timeout ready handler y2 rest
        { r with survivors := curr :: r.survivors,
                 invoked := curr.fd :: r.invoked }
      else
        let r := process_generic timeout ready handler y2 rest
        { r with evDisc := curr.fd :: r.evDisc,
                 invoked := curr.fd :: r.invoked }
    else
      let r := process_generic timeout ready handler y2 rest
      { r with survivors := curr :: r.survivors }

/-- The timeout computation of `main` (lines 399-409): with `youngest`
still `INT_MAX` the loop blocks in `select` with no timeout (`none`);
otherwise it waits `expire - now` seconds where `expire = youngest +
HTTP_TIMEOUT`, clamped at 0. -/
def wait_tv (youngest now : Int) : Option Int :=
  if youngest ≠ INT_MAX then
    some (if youngest + HTTP_TIMEOUT ≤ now then 0
          else youngest + HTTP_TIMEOUT - now)
  else none

theorem run_bytes_append (b1 b2 : List Char) :
    ∀ s, run_bytes s (b1 ++ b2) = run_chunk (run_bytes s b1) b2 := by
  induction b1 with
  | nil => intro s; simp [run_bytes, run_chunk]
  | cons c rest ih =>
    intro s
    simp only [List.cons_append, run_bytes]
    cases read_step s c with
    | more s2 => exact ih s2
    | accept => simp [run_chunk]
    | reject => simp [run_chunk]

theorem run_chunk_append (o : Outcome) (b1 b2 : List Char) :
    run_chunk o (b1 ++ b2) = run_chunk (run_chunk o b1) b2 := by
  cases o with
  | reading s => exact run_bytes_append b1 b2 s
  | accepted => simp [run_chunk]
  | rejected => simp [run_chunk]

theorem run_bytes_cons_more {s s2 : Nat} {c : Char} (rest : List Char)
    (h : read_step s c = .more s2) :
    run_bytes s (c :: rest) = run_bytes s2 rest := by
  simp [run_bytes, h]

theorem run_bytes_cons_accept {s : Nat} {c : Char} (rest : List Char)
    (h : read_step s c = .accept) :
    run_bytes s (c :: rest) = .accepted := by
  simp [run_bytes, h]

theorem run_bytes_no_reject (bs : List Char) :
    ∀ s, s = 4 ∨ s = 5 ∨ s = 6 → run_bytes s bs ≠ .rejected := by
  induction bs with
  | nil => intro s _; simp [run_bytes]
  | cons c rest ih =>
    intro s hs
    rcases hs with rfl | rfl | rfl
    · by_cases h : c = '\n'
      · rw [run_bytes_cons_more rest (show read_step 4 c = .more 5 from
          if_pos h)]
        exact ih 5 (by tauto)
      · rw [run_bytes_cons_more rest (show read_step 4 c = .more 4 from
          if_neg h)]
        exact ih 4 (by tauto)
    · by_cases h : c = '\r' ∨ c = '\n'
      · rw [run_bytes_cons_accept rest (show read_step 5 c = .accept from
          if_pos h)]
        simp
      · rw [run_bytes_cons_more rest (show read_step 5 c = .more 6 from
          if_neg h)]
        exact ih 6 (by tauto)
    · by_cases h : c = '\n'
      · rw [run_bytes_cons_more rest (show read_step 6 c = .more 5 from
          if_pos h)]
        exact ih 5 (by tauto)
      · rw [run_bytes_cons_more rest (show read_step 6 c = .more 6 from
          if_neg h)]
        exact ih 6 (by tauto)

theorem restBytes_take (hdrB msgB : List α) (cl : WClient) (buf : List α)
    (a : Nat) (hb : write_buf hdrB msgB cl.state = some buf)
    (ha : cl.write_ofs + a ≤ buf.length) :
    (buf.drop cl.write_ofs).take a = (restBytes hdrB msgB cl).take a := by
  by_cases hs0 : cl.state = 0
  · simp only [write_buf] at hb
    rw [if_pos hs0] at hb
    have hEq : hdrB = buf := Option.some_inj.mp hb
    rw [← hEq] at ha ⊢
    have hlen : a ≤ (hdrB.drop cl.write_ofs).length := by
      rw [List.length_drop]; omega
    rw [show restBytes hdrB msgB cl = hdrB.drop cl.write_ofs ++ msgB by
          simp [restBytes, hs0]]
    exact (List.take_append_of_le_length hlen).symm
  · by_cases hs1 : cl.state = 1
    · simp only [write_buf] at hb
      rw [if_neg hs0, if_pos hs1] at hb
      have hEq : msgB = buf := Option.some_inj.mp hb
      rw [← hEq]
      rw [show restBytes hdrB msgB cl = msgB.drop cl.write_ofs by
            simp [restBytes, hs0, hs1]]
    · simp only [write_buf] at hb
      rw [if_neg hs0, if_neg hs1] at hb
      exact Option.noConfusion hb

theorem restBytes_drop (hdrB msgB : List α) (cl : WClient) (buf : List α)
    (a : Nat) (hb : write_buf hdrB msgB cl.state = some buf)
    (ha : cl.write_ofs + a ≤ buf.length) :
    restBytes hdrB msgB (wstep buf.length cl a) =
      (restBytes hdrB msgB cl).drop a := by
  by_cases hs0 : cl.state = 0
  · simp only [write_buf] at hb
    rw [if_pos hs0] at hb
    have hEq : hdrB = buf := Option.some_inj.mp hb
    rw [← hEq] at ha ⊢
    have hlen : a ≤ (hdrB.drop cl.write_ofs).length := by
      rw [List.length_drop]; omega
    rw [show restBytes hdrB msgB cl = hdrB.drop cl.write_ofs ++ msgB by
          simp [restBytes, hs0],
        List.drop_append_of_le_length hlen, List.drop_drop]
    by_cases hfull : cl.write_ofs + a = hdrB.length
    · have hnil : hdrB.drop (cl.write_ofs + a) = [] := by
        rw [hfull]; exact List.drop_length hdrB
      simp [wstep, hfull, restBytes, hs0, hnil]
    · simp [wstep, hfull, restBytes, hs0]
  · by_cases hs1 : cl.state = 1
    · simp only [write_buf] at hb
      rw [if_neg hs0, if_pos hs1] at hb
      have hEq : msgB = buf := Option.some_inj.mp hb
      rw [← hEq] at ha ⊢
      rw [show restBytes hdrB msgB cl = msgB.drop cl.write_ofs by
            simp [restBytes, hs0, hs1],
          List.drop_drop]
      by_cases hfull : cl.write_ofs + a = msgB.length
      · have hnil : msgB.drop (cl.write_ofs + a) = [] := by
          rw [hfull]; exact List.drop_length msgB
        simp [wstep, hfull, restBytes, hs1, hnil]
      · simp [wstep, hfull, restBytes, hs0, hs1]
    · simp only [write_buf] at hb
      rw [if_neg hs0, if_neg hs1] at hb
      exact Option.noConfusion hb

theorem writer_run_out (hdrB msgB : List α) :
    ∀ (sched : List Nat) (cl : WClient),
      validSched hdrB msgB cl sched = true →
      (writer_run hdrB msgB cl sched).2 =
        (restBytes hdrB msgB cl).take sched.sum := by
  intro sched
  induction sched with
  | nil => intro cl _; simp [writer_run]
  | cons a rest ih =>
    intro cl hv
    simp only [validSched] at hv
    rcases hb : write_buf hdrB msgB cl.state with _ | buf
    · rw [hb] at hv; simp at hv
    · rw [hb] at hv
      simp only [Bool.and_eq_true, decide_eq_true_eq] at hv
      obtain ⟨⟨ha1, ha2⟩, hrest⟩ := hv
      simp only [writer_run, hb]
      rw [ih _ hrest, List.sum_cons, List.take_add,
        restBytes_take hdrB msgB cl buf a hb ha2,
        restBytes_drop hdrB msgB cl buf a hb ha2]

theorem writer_run_done (hdrB msgB : List α) :
    ∀ (sched : List Nat) (cl : WClient),
      validSched hdrB msgB cl sched = true →
      sched.sum = (restBytes hdrB msgB cl).length →
      ((cl.state = 0 ∧ cl.write_ofs < hdrB.length ∧ msgB ≠ []) ∨
        (cl.state = 1 ∧ cl.write_ofs < msgB.length)) →
      (writer_run hdrB msgB cl sched).1 = ⟨2, 0⟩ := by
  intro sched
  induction sched with
  | nil =>
    intro cl _ hsum hinv
    exfalso
    rcases hinv with ⟨hs0, hofs, _⟩ | ⟨hs1, hofs⟩
    · simp [restBytes, hs0] at hsum
      omega
    · simp [restBytes, hs1] at hsum
      omega
  | cons a rest ih =>
    intro cl hv hsum hinv
    simp only [validSched] at hv
    rcases hb : write_buf hdrB msgB cl.state with _ | buf
    · rw [hb] at hv; simp at hv
    · rw [hb] at hv
      simp only [Bool.and_eq_true, decide_eq_true_eq] at hv
      obtain ⟨⟨ha1, ha2⟩, hrest⟩ := hv
      simp only [writer_run, hb]
      show (writer_run hdrB msgB (wstep buf.length cl a) rest).1 = ⟨2, 0⟩
      rcases hinv with ⟨hs0, hofs, hmsg⟩ | ⟨hs1, hofs⟩
      · have hEq : hdrB = buf := by
          simp only [write_buf] at hb
          rw [if_pos hs0] at hb
          exact Option.some_inj.mp hb
        rw [← hEq] at ha2 hrest ⊢
        simp [restBytes, hs0, List.sum_cons] at hsum
        by_cases hfull : cl.write_ofs + a = hdrB.length
        · have hc2 : wstep hdrB.length cl a = ⟨1, 0⟩ := by
            simp [wstep, hfull, hs0]
          rw [hc2] at hrest ⊢
          apply ih _ hrest
          · simp [restBytes]
            omega
          · right
            exact ⟨rfl, List.length_pos.mpr hmsg⟩
        · have hc2 : wstep hdrB.length cl a = ⟨0, cl.write_ofs + a⟩ := by
            simp [wstep, hfull, hs0]
          rw [hc2] at hrest ⊢
          apply ih _ hrest
          · have hr : restBytes hdrB msgB (⟨0, cl.write_ofs + a⟩ : WClient) =
                hdrB.drop (cl.write_ofs + a) ++ msgB := rfl
            rw [hr, List.length_append, List.length_drop]
            omega
          · refine Or.inl ⟨rfl, ?_, hmsg⟩
            show cl.write_ofs + a < hdrB.length
            omega
      · have hEq : msgB = buf := by
          simp only [write_buf] at hb
          rw [if_neg (by omega : ¬cl.state = 0), if_pos hs1] at hb
          exact Option.some_inj.mp hb
        rw [← hEq] at ha2 hrest ⊢
        simp [restBytes, hs1, List.sum_cons] at hsum
        by_cases hfull : cl.write_ofs + a = msgB.length
        · have hc2 : wstep msgB.length cl a = ⟨2, 0⟩ := by
            simp [wstep, hfull, hs1]
          rw [hc2] at hrest ⊢
          cases rest with
          | nil => simp [writer_run]
          | cons b r =>
            exfalso
            simp [validSched, write_buf] at hrest
        · have hc2 : wstep msgB.length cl a = ⟨1, cl.write_ofs + a⟩ := by
            simp [wstep, hfull, hs1]
          rw [hc2] at hrest ⊢
          apply ih _ hrest
          · have hr : restBytes hdrB msgB (⟨1, cl.write_ofs + a⟩ : WClient) =
                msgB.drop (cl.write_ofs + a) := rfl
            rw [hr, List.length_drop]
            omega
          · refine Or.inr ⟨rfl, ?_⟩
            show cl.write_ofs + a < msgB.length
            omega

theorem process_generic_sub (timeout : Int) (ready : Finset Nat)
    (handler : Client → Bool) :
    ∀ (cls : List Client) (y0 : Int),
      (process_generic timeout ready handler y0 cls).evIdle ⊆
          cls.map Client.fd ∧
        (process_generic timeout ready handler y0 cls).invoked ⊆
          cls.map Client.fd := by
  intro cls
  induction cls with
  | nil => intro y0; simp [process_generic]
  | cons curr rest ih =>
    intro y0
    simp only [process_generic, List.map_cons]
    by_cases h1 : curr.last ≤ timeout
    · simp only [if_pos h1]
      exact ⟨List.cons_subset_cons _ (ih _).1,
        (ih _).2.trans (List.subset_cons_self _ _)⟩
    · simp only [if_neg h1]
      by_cases h2 : curr.fd ∈ ready
      · simp only [if_pos h2]
        by_cases h3 : handler curr = true
        · simp only [if_pos h3]
          exact ⟨(ih _).1.trans (List.subset_cons_self _ _),
            List.cons_subset_cons _ (ih _).2⟩
        · simp only [if_neg h3]
          exact ⟨(ih _).1.trans (List.subset_cons_self _ _),
            List.cons_subset_cons _ (ih _).2⟩
      · simp only [if_neg h2]
        exact ⟨(ih _).1.trans (List.subset_cons_self _ _),
          (ih _).2.trans (List.subset_cons_self _ _)⟩

theorem process_generic_evIdle_mem (timeout : Int) (ready : Finset Nat)
    (handler : Client → Bool) :
    ∀ (cls : List Client) (y0 : Int) (cl : Client),
      (cls.map Client.fd).Nodup → cl ∈ cls →
      (cl.fd ∈ (process_generic timeout ready handler y0 cls).evIdle ↔
        cl.last ≤ timeout) := by
  intro cls
  induction cls with
  | nil => intro y0 cl _ hmem; cases hmem
  | cons curr rest ih =>
    intro y0 cl hnd hmem
    simp only [List.map_cons, List.nodup_cons] at hnd
    obtain ⟨hfd, hnd2⟩ := hnd
    simp only [process_generic]
    rcases List.mem_cons.mp hmem with rfl | hmem2
    · have hnotin : cl.fd ∉ (process_generic timeout ready handler
          (if cl.last < y0 then cl.last else y0) rest).evIdle := fun hin =>
        hfd ((process_generic_sub timeout ready handler rest _).1 hin)
      by_cases h1 : cl.last ≤ timeout
      · simp [if_pos h1, h1]
      · simp only [if_neg h1]
        by_cases h2 : cl.fd ∈ ready
        · by_cases h3 : handler cl = true
          · simp [if_pos h2, if_pos h3, hnotin, h1]
          · simp [if_pos h2, if_neg h3, hnotin, h1]
        · simp [if_neg h2, hnotin, h1]
    · have hne : cl.fd ≠ curr.fd := by
        intro he
        exact hfd (he ▸ List.mem_map_of_mem Client.fd hmem2)
      have hih := ih (if curr.last < y0 then curr.last else y0) cl hnd2 hmem2
      by_cases h1 : curr.last ≤ timeout
      · simp [if_pos h1, List.mem_cons, hne, hih]
      · simp only [if_neg h1]
        by_cases h2 : curr.fd ∈ ready
        · by_cases h3 : handler curr = true
          · simp [if_pos h2, if_pos h3, hih]
          · simp [if_pos h2, if_neg h3, hih]
        · simp [if_neg h2, hih]

theorem process_generic_invoked_mem (timeout : Int) (ready : Finset Nat)
    (handler : Client → Bool) :
    ∀ (cls : List Client) (y0 : Int) (cl : Client),
      (cls.map Client.fd).Nodup → cl ∈ cls → cl.last ≤ timeout →
      cl.fd ∉ (process_generic timeout ready handler y0 cls).invoked := by
  intro cls
  induction cls with
  | nil => intro y0 cl _ hmem; cases hmem
  | cons curr rest ih =>
    intro y0 cl hnd hmem hle
    simp only [List.map_cons, List.nodup_cons] at hnd
    obtain ⟨hfd, hnd2⟩ := hnd
    simp only [process_generic]
    rcases List.mem_cons.mp hmem with rfl | hmem2
    · have hnotin : cl.fd ∉ (process_generic timeout ready handler
          (if cl.last < y0 then cl.last else y0) rest).invoked := fun hin =>
        hfd ((process_generic_sub timeout ready handler rest _).2 hin)
      simp [if_pos hle, hnotin]
    · have hne : cl.fd ≠ curr.fd := by
        intro he
        exact hfd (he ▸ List.mem_map_of_mem Client.fd hmem2)
      have hih := ih (if curr.last < y0 then curr.last else y0) cl hnd2
        hmem2 hle
      by_cases h1 : curr.last ≤ timeout
      · simp [if_pos h1, hih]
      · simp only [if_neg h1]
        by_cases h2 : curr.fd ∈ ready
        · by_cases h3 : handler curr = true
          · simp [if_pos h2, if_pos h3, List.mem_cons, hne, hih]
          · simp [if_pos h2, if_neg h3, List.mem_cons, hne, hih]
        · simp [if_neg h2, hih]

theorem process_generic_youngest (timeout : Int) (ready : Finset Nat)
    (handler : Client → Bool) :
    ∀ (cls : List Client) (y0 : Int),
      (process_generic timeout ready handler y0 cls).youngest =
        cls.foldl (fun y cl => if cl.last < y then cl.last else y) y0 := by
  intro cls
  induction cls with
  | nil => intro y0; simp [process_generic]
  | cons curr rest ih =>
    intro y0
    simp only [process_generic, List.foldl_cons]
    by_cases h1 : curr.last ≤ timeout
    · simp only [if_pos h1]; exact ih _
    · simp only [if_neg h1]
      by_cases h2 : curr.fd ∈ ready
      · by_cases h3 : handler curr = true
        · simp only [if_pos h2, if_pos h3]; exact ih _
        · simp only [if_pos h2, if_neg h3]; exact ih _
      · simp only [if_neg h2]; exact ih _

theorem foldl_youngest_le (cls : List Client) :
    ∀ y0 : Int,
      cls.foldl (fun y cl => if cl.last < y then cl.last else y) y0 ≤ y0 ∧
      ∀ cl ∈ cls,
        cls.foldl (fun y cl => if cl.last < y then cl.last else y) y0 ≤
          cl.last := by
  induction cls with
  | nil => intro y0; simp
  | cons curr rest ih =>
    intro y0
    simp only [List.foldl_cons]
    have hle : (if curr.last < y0 then curr.last else y0) ≤ y0 := by
      split <;> omega
    have hlc : (if curr.last < y0 then curr.last else y0) ≤ curr.last := by
      split <;> omega
    refine ⟨le_trans (ih _).1 hle, ?_⟩
    intro cl hmem
    rcases List.mem_cons.mp hmem with rfl | hmem2
    · exact le_trans (ih _).1 hlc
    · exact (ih _).2 cl hmem2

theorem foldl_youngest_mem (cls : List Client) :
    ∀ y0 : Int,
      cls.foldl (fun y cl => if cl.last < y then cl.last else y) y0 = y0 ∨
      ∃ cl ∈ cls,
        cls.foldl (fun y cl => if cl.last < y then cl.last else y) y0 =
          cl.last := by
  induction cls with
  | nil => intro y0; left; rfl
  | cons curr rest ih =>
    intro y0
    simp only [List.foldl_cons]
    rcases ih (if curr.last < y0 then curr.last else y0) with h | ⟨cl, hm, h⟩
    · by_cases hc : curr.last < y0
      · right
        exact ⟨curr, by simp, by rw [h, if_pos hc]⟩
      · left
        rw [h, if_neg hc]
    · right
      exact ⟨cl, by simp [hm], h⟩

/-- Claim C6: the request recognizer is a homomorphism over input chunking:
feeding the bytes of any partition `cs` across separate read calls (state
persisted in the connection record between calls) yields the same final
state and the same accept/reject outcome as feeding the concatenation
`cs.join` as one chunk. -/
theorem c6_chunking_homomorphism (o : Outcome) (cs : List (List Char)) :
    run_chunks o cs = run_chunk o cs.flatten := by
  induction cs generalizing o with
  | nil => cases o <;> simp [run_chunks, run_chunk, run_bytes]
  | cons b rest ih =>
    have h1 : run_chunks o (b :: rest) = run_chunks (run_chunk o b) rest :=
      rfl
    rw [h1, ih, List.flatten_cons, run_chunk_append]

/-- Claim C9: in the after-line-start state (5), a line whose first byte is
a lone carriage-return or line-feed completes the request; any other first
byte starts a header line whose bytes are skipped up to and including its
terminating line-feed, returning to the after-line-start state. -/
theorem c9_blank_line_detection (c c2 : Char) (rest rest2 line : List Char) :
    (c = '\r' ∨ c = '\n' → run_bytes 5 (c :: rest) = .accepted) ∧
    (c2 ≠ '\r' → c2 ≠ '\n' → (∀ b ∈ line, b ≠ '\n') →
      run_bytes 5 (c2 :: (line ++ '\n' :: rest2)) = run_bytes 5 rest2) := by
  constructor
  · intro h
    exact run_bytes_cons_accept rest
      (show read_step 5 c = .accept from if_pos h)
  · intro h1 h2 hline
    rw [run_bytes_cons_more (line ++ '\n' :: rest2)
      (show read_step 5 c2 = .more 6 from if_neg (not_or.mpr ⟨h1, h2⟩))]
    induction line with
    | nil =>
      exact run_bytes_cons_more rest2
        (by decide : read_step 6 '\n' = .more 5)
    | cons b t ih =>
      have hb : b ≠ '\n' := hline b (by simp)
      rw [List.cons_append,
        run_bytes_cons_more (t ++ '\n' :: rest2)
          (show read_step 6 b = .more 6 from if_neg hb)]
      exact ih (fun x hx => hline x (by simp [hx]))

/-- Claim C9 witness: a lone CR in state 5 completes the request, and a
non-blank first byte starts a header line that is skipped through its LF
back to state 5. -/
theorem c9_blank_line_detection_witness :
    run_bytes 5 ['\r'] = .accepted ∧
    run_bytes 5 ('H' :: (['o', 's', 't'] ++ '\n' :: ['\r'])) =
      run_bytes 5 ['\r'] :=
  ⟨(c9_blank_line_detection '\r' 'H' [] ['\r'] ['o', 's', 't']).1
      (Or.inl rfl),
    (c9_blank_line_detection '\r' 'H' [] ['\r'] ['o', 's', 't']).2
      (by decide) (by decide) (by decide)⟩

/-- Claim C10: once the recognizer has matched the method token and the
space (states 4, 5, 6), no input byte can cause rejection: each step either
completes the request or keeps consuming, and no byte sequence of any
length fed from those states produces the rejected outcome. -/
theorem c10_no_reject_after_method (s : Nat) (c : Char) (bs : List Char)
    (hs : s = 4 ∨ s = 5 ∨ s = 6) :
    read_step s c ≠ .reject ∧ run_bytes s bs ≠ .rejected := by
  refine ⟨?_, run_bytes_no_reject bs s hs⟩
  rcases hs with rfl | rfl | rfl
  · by_cases h : c = '\n' <;> simp [read_step, h]
  · by_cases h : c = '\r' ∨ c = '\n' <;> simp [read_step, h]
  · by_cases h : c = '\n' <;> simp [read_step, h]

/-- Claim C10 witness: in the request-line-skipping state no byte rejects,
in particular a long garbage line never closes the connection. -/
theorem c10_no_reject_after_method_witness :
    read_step 4 'x' ≠ .reject ∧
    run_bytes 4 ['x', 'y', 'z', 'z', 'z'] ≠ .rejected :=
  c10_no_reject_after_method 4 'x' ['x', 'y', 'z', 'z', 'z'] (Or.inl rfl)

/-- Claim C2: a connection whose first three received bytes are not exactly
the method token `GET`, or whose fourth byte is not a single space, is
rejected by the recognizer, and zero response bytes are ever written on it
(it never reaches the writer list). -/
theorem c2_method_mismatch_rejected (bs : List Char) (hdrB msgB : List Char)
    (sched : List Nat) (hlen : 4 ≤ bs.length)
    (hmis : bs.take 3 ≠ ['G', 'E', 'T'] ∨ bs.get? 3 ≠ some ' ') :
    run_bytes 0 bs = .rejected ∧
    connection_written bs hdrB msgB sched = [] := by
  rcases bs with _ | ⟨c0, bs⟩
  · simp at hlen
  rcases bs with _ | ⟨c1, bs⟩
  · simp at hlen
  rcases bs with _ | ⟨c2, bs⟩
  · simp at hlen
  rcases bs with _ | ⟨c3, rest⟩
  · simp at hlen
  have hrej : run_bytes 0 (c0 :: c1 :: c2 :: c3 :: rest) = .rejected := by
    by_cases h0 : c0 = 'G'
    · by_cases h1 : c1 = 'E'
      · by_cases h2 : c2 = 'T'
        · by_cases h3 : c3 = ' '
          · exfalso
            rcases hmis with hm | hm
            · exact hm (by simp [h0, h1, h2])
            · exact hm (by simp [List.get?, h3])
          · simp [run_bytes, read_step, h0, h1, h2, h3]
        · simp [run_bytes, read_step, h0, h1, h2]
      · simp [run_bytes, read_step, h0, h1]
    · simp [run_bytes, read_step, h0]
  exact ⟨hrej, by simp [connection_written, hrej]⟩

/-- Claim C2 witness: the request `POST` is rejected with nothing written. -/
theorem c2_method_mismatch_rejected_witness :
    run_bytes 0 ['P', 'O', 'S', 'T'] = .rejected ∧
    connection_written ['P', 'O', 'S', 'T'] ['h'] ['m'] [1, 1] = [] :=
  c2_method_mismatch_rejected ['P', 'O', 'S', 'T'] ['h'] ['m'] [1, 1]
    (by decide) (Or.inl (by decide))

/-- Claim C7: for every valid sequence of per-call transport-accepted byte
counts (each between 1 and the count requested from the current buffer),
the Response Writer writes exactly the accepted prefix of
`header_bytes ++ body_bytes` (so it never writes past a buffer's logical
end), and when the counts sum to the full response length the run ends in
the done phase (`state = 2`, `write_ofs = 0`) having written exactly
`header_bytes ++ body_bytes`. -/
theorem c7_writer_delivers {α : Type} (hdrB msgB : List α) (sched : List Nat)
    (hv : validSched hdrB msgB ⟨0, 0⟩ sched = true) :
    (writer_run hdrB msgB ⟨0, 0⟩ sched).2 = (hdrB ++ msgB).take sched.sum ∧
    (hdrB ≠ [] → msgB ≠ [] → sched.sum = hdrB.length + msgB.length →
      writer_run hdrB msgB ⟨0, 0⟩ sched = (⟨2, 0⟩, hdrB ++ msgB)) := by
  have hrest0 : restBytes hdrB msgB (⟨0, 0⟩ : WClient) = hdrB ++ msgB := rfl
  constructor
  · rw [writer_run_out hdrB msgB sched ⟨0, 0⟩ hv, hrest0]
  · intro hh hm hsum
    have h1 := writer_run_out hdrB msgB sched ⟨0, 0⟩ hv
    have h2 := writer_run_done hdrB msgB sched ⟨0, 0⟩ hv
      (by rw [hrest0, List.length_append]; exact hsum)
      (Or.inl ⟨rfl, List.length_pos.mpr hh, hm⟩)
    rw [show writer_run hdrB msgB ⟨0, 0⟩ sched =
        ((writer_run hdrB msgB ⟨0, 0⟩ sched).1,
          (writer_run hdrB msgB ⟨0, 0⟩ sched).2) from rfl,
      h1, h2, hrest0, hsum, ← List.length_append, List.take_length]

/-- Claim C7 witness: a header of two bytes and a body of one byte are
delivered in full by three one-byte writes. -/
theorem c7_writer_delivers_witness :
    (writer_run [10, 20] [30] ⟨0, 0⟩ [1, 1, 1]).2 =
      ([10, 20] ++ [30]).take ([1, 1, 1] : List Nat).sum ∧
    (([10, 20] : List Nat) ≠ [] → ([30] : List Nat) ≠ [] →
      ([1, 1, 1] : List Nat).sum = ([10, 20] : List Nat).length +
        ([30] : List Nat).length →
      writer_run [10, 20] [30] ⟨0, 0⟩ [1, 1, 1] =
        (⟨2, 0⟩, [10, 20] ++ [30])) :=
  c7_writer_delivers [10, 20] [30] [1, 1, 1] (by decide)

/-- Claim C1: on the byte stream `GET / HTTP/1.0` CR LF CR LF the
recognizer accepts, `do_get` moves the connection from the reader
collection to the writer collection (clearing read-interest, setting
write-interest, resetting `write_ofs` to 0 and the phase to header), and
for any valid transport schedule covering the whole response the bytes
written on the connection are exactly `header_bytes ++ body_bytes`. -/
theorem c1_valid_request_served (hdrB msgB : List Char) (sys : Sys)
    (pre post : List Client) (cl : Client) (sched : List Nat)
    (_hsplit : sys.readers = pre ++ cl :: post)
    (hv : validSched hdrB msgB ⟨0, 0⟩ sched = true)
    (hsum : sched.sum = hdrB.length + msgB.length) :
    run_bytes 0 sopaRequest = .accepted ∧
    (do_get sys pre cl post).readers = pre ++ post ∧
    (do_get sys pre cl post).writers =
      { cl with write_ofs := 0, state := 0 } :: sys.writers ∧
    cl.fd ∉ (do_get sys pre cl post).rfds ∧
    cl.fd ∈ (do_get sys pre cl post).wfds ∧
    connection_written sopaRequest hdrB msgB sched = hdrB ++ msgB := by
  have hacc : run_bytes 0 sopaRequest = .accepted := by decide
  refine ⟨hacc, rfl, rfl, Finset.not_mem_erase _ _,
    Finset.mem_insert_self _ _, ?_⟩
  have hout : connection_written sopaRequest hdrB msgB sched =
      (writer_run hdrB msgB ⟨0, 0⟩ sched).2 := by
    rw [connection_written, hacc]
  rw [hout, writer_run_out hdrB msgB sched ⟨0, 0⟩ hv,
    show restBytes hdrB msgB (⟨0, 0⟩ : WClient) = hdrB ++ msgB from rfl,
    hsum, ← List.length_append, List.take_length]

/-- Claim C1 witness: a concrete reader connection is moved to the writer
list by the complete request and the response bytes are delivered by
one-byte writes. -/
theorem c1_valid_request_served_witness :
    run_bytes 0 sopaRequest = .accepted ∧
    (do_get ⟨[], [⟨4, 4, 0, 0⟩], [], {4}, ∅, 4⟩ [] ⟨4, 4, 0, 0⟩ []).readers =
      [] ++ [] ∧
    (do_get ⟨[], [⟨4, 4, 0, 0⟩], [], {4}, ∅, 4⟩ [] ⟨4, 4, 0, 0⟩ []).writers =
      { (⟨4, 4, 0, 0⟩ : Client) with write_ofs := 0, state := 0 } :: [] ∧
    (⟨4, 4, 0, 0⟩ : Client).fd ∉
      (do_get ⟨[], [⟨4, 4, 0, 0⟩], [], {4}, ∅, 4⟩ [] ⟨4, 4, 0, 0⟩ []).rfds ∧
    (⟨4, 4, 0, 0⟩ : Client).fd ∈
      (do_get ⟨[], [⟨4, 4, 0, 0⟩], [], {4}, ∅, 4⟩ [] ⟨4, 4, 0, 0⟩ []).wfds ∧
    connection_written sopaRequest ['h'] ['m'] [1, 1] = ['h'] ++ ['m'] :=
  c1_valid_request_served ['h'] ['m']
    ⟨[], [⟨4, 4, 0, 0⟩], [], {4}, ∅, 4⟩ [] [] ⟨4, 4, 0, 0⟩ [1, 1]
    rfl (by decide) (by decide)

/-- Claim C3 counterexample: with two connections pending, the per-iteration
accept step (a single `client_accept` call, as `main` performs at lines
419-422) accepts only the first; a pending connection remains, so the loop
does not drain all immediately-available connections. -/
theorem c3_accept_not_drained :
    (client_accept 0 ⟨[4, 5], [], [], ∅, ∅, 3⟩).pending = [5] ∧
    (client_accept 0 ⟨[4, 5], [], [], ∅, ∅, 3⟩).pending ≠ [] ∧
    (client_accept 0 ⟨[4, 5], [], [], ∅, ∅, 3⟩).readers.length = 1 := by
  decide

/-- Claim C3 (amended): in an iteration where the listening descriptor is
ready, the loop accepts at most one pending connection: the first pending
descriptor becomes a record prepended to the reader collection with
`last_activity = now` and read interest set, and any remaining pending
connections are left for later iterations. -/
theorem c3_single_accept (now : Int) (s : Sys) (fdn : Nat) (rest : List Nat)
    (hp : s.pending = fdn :: rest) :
    (client_accept now s).pending = rest ∧
    (client_accept now s).readers = ⟨fdn, 0, now, 0⟩ :: s.readers ∧
    (client_accept now s).rfds = insert fdn s.rfds ∧
    (client_accept now s).fd_max = max s.fd_max fdn := by
  obtain ⟨p, rd, wr, rf, wf, fm⟩ := s
  have hp2 : p = fdn :: rest := hp
  subst hp2
  exact ⟨rfl, rfl, rfl, rfl⟩

/-- Claim C3 witness: accepting from a concrete system with one pending
connection. -/
theorem c3_single_accept_witness :
    (client_accept 7 ⟨[9], [], [], ∅, ∅, 3⟩).pending = [] ∧
    (client_accept 7 ⟨[9], [], [], ∅, ∅, 3⟩).readers =
      ⟨9, 0, 7, 0⟩ :: (⟨[9], [], [], ∅, ∅, 3⟩ : Sys).readers ∧
    (client_accept 7 ⟨[9], [], [], ∅, ∅, 3⟩).rfds =
      insert 9 (⟨[9], [], [], ∅, ∅, 3⟩ : Sys).rfds ∧
    (client_accept 7 ⟨[9], [], [], ∅, ∅, 3⟩).fd_max =
      max (⟨[9], [], [], ∅, ∅, 3⟩ : Sys).fd_max 9 :=
  c3_single_accept 7 ⟨[9], [], [], ∅, ∅, 3⟩ 9 [] rfl

/-- Claim C4 counterexample: a record whose idle time equals the threshold
exactly (`now - last_activity = 5`) is evicted by the traversal, not
retained: the code evicts on `last <= now - HTTP_TIMEOUT`, so eviction is
not equivalent to `now - last_activity > HTTP_TIMEOUT`. -/
theorem c4_threshold_equality_evicts :
    ¬ ((3 ∈ (process_generic ((5 : Int) - HTTP_TIMEOUT) ∅ (fun _ => true)
          INT_MAX [⟨3, 0, 0, 0⟩]).evIdle) ↔
        ((5 : Int) - (0 : Int) > HTTP_TIMEOUT)) := by
  decide

/-- Claim C4 (amended): during a registry traversal at time `now`, a record
is evicted for idleness if and only if `now - last_activity ≥
HTTP_TIMEOUT`; a record whose idle time equals the threshold exactly is
evicted. -/
theorem c4_idle_eviction_iff (now : Int) (ready : Finset Nat)
    (handler : Client → Bool) (y0 : Int) (cls : List Client) (cl : Client)
    (hnd : (cls.map Client.fd).Nodup) (hmem : cl ∈ cls) :
    cl.fd ∈ (process_generic (now - HTTP_TIMEOUT) ready handler y0
        cls).evIdle ↔
      HTTP_TIMEOUT ≤ now - cl.last := by
  rw [process_generic_evIdle_mem (now - HTTP_TIMEOUT) ready handler cls y0
    cl hnd hmem]
  omega

/-- Claim C4 witness: a record idle for exactly the threshold is evicted,
and a fresh record is not. -/
theorem c4_idle_eviction_iff_witness :
    ((3 ∈ (process_generic ((5 : Int) - HTTP_TIMEOUT) ∅ (fun _ => true)
        INT_MAX [⟨3, 0, 0, 0⟩, ⟨4, 0, 5, 0⟩]).evIdle) ↔
      HTTP_TIMEOUT ≤ (5 : Int) - (0 : Int)) ∧
    ((4 ∈ (process_generic ((5 : Int) - HTTP_TIMEOUT) ∅ (fun _ => true)
        INT_MAX [⟨3, 0, 0, 0⟩, ⟨4, 0, 5, 0⟩]).evIdle) ↔
      HTTP_TIMEOUT ≤ (5 : Int) - (5 : Int)) :=
  ⟨c4_idle_eviction_iff 5 ∅ (fun _ => true) INT_MAX
      [⟨3, 0, 0, 0⟩, ⟨4, 0, 5, 0⟩] ⟨3, 0, 0, 0⟩ (by decide) (by decide),
    c4_idle_eviction_iff 5 ∅ (fun _ => true) INT_MAX
      [⟨3, 0, 0, 0⟩, ⟨4, 0, 5, 0⟩] ⟨4, 0, 5, 0⟩ (by decide) (by decide)⟩

/-- Claim C8: in every registry traversal the idleness check runs before
the readiness check: a record whose idle time strictly exceeds the
threshold is evicted without its handler being invoked in that iteration,
even if its descriptor is marked ready. -/
theorem c8_idle_before_ready (now : Int) (ready : Finset Nat)
    (handler : Client → Bool) (y0 : Int) (cls : List Client) (cl : Client)
    (hnd : (cls.map Client.fd).Nodup) (hmem : cl ∈ cls)
    (hidle : HTTP_TIMEOUT < now - cl.last) :
    cl.fd ∈ (process_generic (now - HTTP_TIMEOUT) ready handler y0
        cls).evIdle ∧
    cl.fd ∉ (process_generic (now - HTTP_TIMEOUT) ready handler y0
        cls).invoked := by
  have hle : cl.last ≤ now - HTTP_TIMEOUT := by omega
  exact ⟨(process_generic_evIdle_mem (now - HTTP_TIMEOUT) ready handler cls
      y0 cl hnd hmem).mpr hle,
    process_generic_invoked_mem (now - HTTP_TIMEOUT) ready handler cls y0 cl
      hnd hmem hle⟩

/-- Claim C8 witness: a ready but idle record is evicted with its handler
never invoked. -/
theorem c8_idle_before_ready_witness :
    3 ∈ (process_generic ((6 : Int) - HTTP_TIMEOUT) {3} (fun _ => true)
        INT_MAX [⟨3, 0, 0, 0⟩]).evIdle ∧
    3 ∉ (process_generic ((6 : Int) - HTTP_TIMEOUT) {3} (fun _ => true)
        INT_MAX [⟨3, 0, 0, 0⟩]).invoked :=
  c8_idle_before_ready 6 {3} (fun _ => true) INT_MAX [⟨3, 0, 0, 0⟩]
    ⟨3, 0, 0, 0⟩ (by decide) (by decide) (by decide)

/-- Claim C5 counterexample: with a single connection idle past the
threshold, the traversal evicts it (no live connection remains) yet the
global `youngest` was already folded from the evicted record before the
idle check, so the next wait is finite (`some 0`), not indefinite as the
claim requires when no connection is live. -/
theorem c5_floor_counterexample :
    (process_generic ((6 : Int) - HTTP_TIMEOUT) ∅ (fun _ => true) INT_MAX
        [⟨3, 0, 0, 0⟩]).survivors = [] ∧
    (process_generic ((6 : Int) - HTTP_TIMEOUT) ∅ (fun _ => true) INT_MAX
        [⟨3, 0, 0, 0⟩]).youngest = 0 ∧
    wait_tv (process_generic ((6 : Int) - HTTP_TIMEOUT) ∅ (fun _ => true)
        INT_MAX [⟨3, 0, 0, 0⟩]).youngest 6 = some 0 ∧
    wait_tv (process_generic ((6 : Int) - HTTP_TIMEOUT) ∅ (fun _ => true)
        INT_MAX [⟨3, 0, 0, 0⟩]).youngest 6 ≠ none := by
  decide

/-- Claim C5 (amended): after a traversal started with `youngest =
INT_MAX`, the Activity Floor is the minimum `last_activity` over all
records present at the start of the traversal — including records evicted
during that iteration — and the next wait is `Activity Floor +
HTTP_TIMEOUT - now` clamped to ≥ 0 whenever at least one record was
present (live or not afterwards), and indefinite only when no record was
present. -/
theorem c5_floor_over_visited (now : Int) (ready : Finset Nat)
    (handler : Client → Bool) (cls : List Client) :
    (∀ cl ∈ cls,
      (process_generic (now - HTTP_TIMEOUT) ready handler INT_MAX
          cls).youngest ≤ cl.last) ∧
    ((process_generic (now - HTTP_TIMEOUT) ready handler INT_MAX
        cls).youngest = INT_MAX ∨
      ∃ cl ∈ cls, (process_generic (now - HTTP_TIMEOUT) ready handler
          INT_MAX cls).youngest = cl.last) ∧
    (cls = [] →
      wait_tv (process_generic (now - HTTP_TIMEOUT) ready handler INT_MAX
        cls).youngest now = none) ∧
    ((∀ cl ∈ cls, cl.last < INT_MAX) → cls ≠ [] →
      wait_tv (process_generic (now - HTTP_TIMEOUT) ready handler INT_MAX
          cls).youngest now =
        some (max 0 ((process_generic (now - HTTP_TIMEOUT) ready handler
          INT_MAX cls).youngest + HTTP_TIMEOUT - now))) := by
  rw [process_generic_youngest (now - HTTP_TIMEOUT) ready handler cls
    INT_MAX]
  refine ⟨(foldl_youngest_le cls INT_MAX).2, foldl_youngest_mem cls INT_MAX,
    ?_, ?_⟩
  · intro hnil
    subst hnil
    simp [wait_tv]
  · intro hlt hne
    have hymax : cls.foldl (fun y cl => if cl.last < y then cl.last else y)
        INT_MAX ≠ INT_MAX := by
      obtain ⟨cl0, hcl0⟩ := List.exists_mem_of_ne_nil cls hne
      have h1 := (foldl_youngest_le cls INT_MAX).2 cl0 hcl0
      have h2 := hlt cl0 hcl0
      omega
    rw [wait_tv, if_pos hymax]
    congr 1
    split <;> omega

/-- Claim C5 witness: a single idle connection evicted during the traversal
still determines a finite, clamped wait. -/
theorem c5_floor_over_visited_witness :
    wait_tv (process_generic ((6 : Int) - HTTP_TIMEOUT) ∅ (fun _ => true)
        INT_MAX [⟨3, 0, 0, 0⟩]).youngest 6 =
      some (max 0 ((process_generic ((6 : Int) - HTTP_TIMEOUT) ∅
        (fun _ => true) INT_MAX [⟨3, 0, 0, 0⟩]).youngest + HTTP_TIMEOUT -
          6)) :=
  (c5_floor_over_visited 6 ∅ (fun _ => true) [⟨3, 0, 0, 0⟩]).2.2.2
    (by decide) (by decide)

end Sopa
